import Mathlib

/-!
Verification development for `checkrel.py`, a tool that computes the
"technical lag" of a PyPI package: given a package and a version
constraint, it selects the matching release, counts how many releases
separate it from the current one, computes the time difference between
their uploads, and extracts the selected release's dependencies from its
source archive.

The Python source is shallowly embedded below: pure helpers become Lean
functions, the interpreter state touched by `get_requires` (working
directory, `sys.path`) is passed explicitly, exceptions become `Except`,
and the external collaborators (HTTP fetch, the archive libraries'
member placement, `distutils.core.run_setup`) become explicit inputs.
-/

namespace Checkrel

/-- Model of `semantic_version.Version` restricted to the dotted numeric
release identifiers handled by the claims (`major.minor.patch`); the
library's pre-release/build fields are not exercised by any claim. -/
structure Version where
  major : Nat
  minor : Nat
  patch : Nat
  deriving DecidableEq, Repr

/-- Semantic-version `<=`: lexicographic on (major, minor, patch). -/
def vle (a b : Version) : Bool :=
  if a.major ≠ b.major then decide (a.major < b.major)
  else if a.minor ≠ b.minor then decide (a.minor < b.minor)
  else decide (a.patch ≤ b.patch)

/-- Semantic-version strict `<`, derived from `vle` by totality. -/
def vlt (a b : Version) : Bool := !(vle b a)

/-- Split a character list at every separator accepted by `p`; the
semantics of Python `str.split(sep)` (and of `String.split`), kept
structurally recursive so that concrete instances evaluate. -/
def splitChars (p : Char → Bool) : List Char → List (List Char)
  | [] => [[]]
  | c :: cs =>
    if p c then [] :: splitChars p cs
    else
      match splitChars p cs with
      | [] => [[c]]
      | g :: gs => (c :: g) :: gs

/-- `String.toNat?` on a character list: `some` exactly for a nonempty
all-digit string. -/
def charsToNat (l : List Char) : Option Nat :=
  match l with
  | [] => none
  | _ =>
    if l.all Char.isDigit then
      some (l.foldl (fun a c => a * 10 + (c.toNat - 48)) 0)
    else none

/-- Model of `semantic_version.Version.coerce` on dotted numeric version
strings: split on `.`, read each component as a number, pad missing
components with zero (so `"1.0"` coerces to `1.0.0`). -/
def coerce (s : String) : Version :=
  let nums := (splitChars (fun c => c == '.') s.data).map
    (fun p => (charsToNat p).getD 0)
  { major := nums.getD 0 0, minor := nums.getD 1 0, patch := nums.getD 2 0 }

/-- `str()` of a coerced version: `"major.minor.patch"`. -/
def vstr (v : Version) : String :=
  toString v.major ++ "." ++ toString v.minor ++ "." ++ toString v.patch

/-- `str(semantic_version.Version.coerce(s))`, as used by the
normalization pass of `lag_package`. -/
def coerceStr (s : String) : String := vstr (coerce s)

/-- One release-file descriptor, an element of `data['releases'][v]`.
Only the fields read by the program are modelled. -/
structure FileData where
  packagetype : String
  url : String
  upload_time : String
  deriving DecidableEq, Repr

/-- `find_source`: first descriptor whose `packagetype` is `'sdist'`;
the Python function returns `{}` when none exists, modelled as `none`
(reading a key from `{}` later raises `KeyError`). -/
def find_source : List FileData → Option FileData
  | [] => none
  | f :: rest => if f.packagetype = "sdist" then some f else find_source rest

/-- The `data['releases']` dictionary: insertion-ordered association
list with unique keys, as a Python `dict`. -/
abbrev RelDict := List (String × List FileData)

/-- Dictionary lookup (`d[k]`, as an `Option`). -/
def dictGet : RelDict → String → Option (List FileData)
  | [], _ => none
  | (k2, v) :: rest, k => if k2 = k then some v else dictGet rest k

/-- Dictionary assignment `d[k] = v`: overwrite in place if the key is
present, else append (Python dict insertion order). -/
def dictSet : RelDict → String → List FileData → RelDict
  | [], k, v => [(k, v)]
  | (k2, v2) :: rest, k, v =>
    if k2 = k then (k, v) :: rest else (k2, v2) :: dictSet rest k v

/-- The keys of the dictionary, in order. -/
def dictKeys (d : RelDict) : List String := d.map Prod.fst

/-- One step of the normalization pass of `lag_package` (lines 194-198):
for a raw key whose normalized spelling differs, store the raw key's
data under the normalized key as well.  The raw key is not removed. -/
def normStep (acc : RelDict) (release : String) : RelDict :=
  let normal := coerceStr release
  if release ≠ normal then
    match dictGet acc release with
    | some rd => dictSet acc normal rd
    | none => acc
  else acc

/-- The whole normalization pass: iterate `normStep` over a snapshot of
the original keys (`list(data['releases'])`), threading the mutated
dictionary. -/
def normalizePass (d : RelDict) : RelDict :=
  (d.map Prod.fst).foldl normStep d

/-- Insertion into an ascending-sorted list of versions. -/
def insertV (x : Version) : List Version → List Version
  | [] => [x]
  | y :: ys => if vle x y then x :: y :: ys else y :: insertV x ys

/-- Model of Python `sorted` on versions: ascending insertion sort. -/
def sortV (l : List Version) : List Version := l.foldr insertV []

/-- Line 202: `sorted([Version.coerce(release) for release in keys])`.
Duplicate versions are kept, as in the source. -/
def sortedReleases (d : RelDict) : List Version :=
  sortV ((d.map Prod.fst).map coerce)

/-- Comparison operators of a `semantic_version.Spec` clause. -/
inductive Op
  | eq | ne | lt | le | gt | ge
  deriving DecidableEq, Repr

/-- A constraint: conjunction of (operator, version) clauses. -/
abbrev Spec := List (Op × Version)

/-- Evaluation of one clause against a version. -/
def opMatch : Op → Version → Version → Bool
  | .eq, v, w => decide (v = w)
  | .ne, v, w => !(decide (v = w))
  | .lt, v, w => vlt v w
  | .le, v, w => vle v w
  | .gt, v, w => vlt w v
  | .ge, v, w => vle w v

/-- A version satisfies a constraint when it satisfies every clause. -/
def specMatches (s : Spec) (v : Version) : Bool :=
  s.all (fun p => opMatch p.1 v p.2)

/-- One step of Python `max` over versions (keep the larger). -/
def maxStep (acc : Option Version) (v : Version) : Option Version :=
  match acc with
  | none => some v
  | some m => some (if vle v m then m else v)

/-- Python `max(l)` over a possibly-empty list, `none` when empty. -/
def maxOf (l : List Version) : Option Version := l.foldl maxStep none

/-- Model of `semantic_version.Spec.select`: the highest candidate
satisfying the constraint, or `None` when no candidate does. -/
def selectSpec (s : Spec) (versions : List Version) : Option Version :=
  maxOf (versions.filter (fun v => specMatches s v))

/-- Errors surfacing from the embedded operations.  The Python program
defines no exception classes of its own: `keyError` stands for a dict
access on a missing key (including a field read on the `{}` returned by
`find_source`), `typeError` for comparing a `Version` against the
`None` returned by `select`, `implicitNone` for `lag_package` falling
off its loop and returning `None` to a caller that unpacks a tuple,
`valueError` for a `strptime` format failure, `pathTraversal` for the
exception raised by `safe_extract`, `unsupportedFormat` for the
`sys.exit(1)` on an unknown archive extension, `readError` for a
non-`FileNotFoundError` failure reading `requires.txt`, and
`setupError` for an exception out of `distutils.core.run_setup`. -/
inductive Err
  | keyError | typeError | valueError | implicitNone
  | pathTraversal | unsupportedFormat | readError | setupError
  deriving DecidableEq, Repr

/-- Days since 1970-01-01 of a civil date (proleptic Gregorian), the
arithmetic underlying `datetime` subtraction. -/
def daysFromCivil (y mo d : Int) : Int :=
  let yy := if mo ≤ 2 then y - 1 else y
  let era := (if 0 ≤ yy then yy else yy - 399) / 400
  let yoe := yy - era * 400
  let mp := (mo + 9) % 12
  let doy := (153 * mp + 2) / 5 + d - 1
  let doe := yoe * 365 + yoe / 4 - yoe / 100 + doy
  era * 146097 + doe - 719468

/-- Seconds since the epoch of a parsed timestamp. -/
def toSecs (y mo dd hh mi ss : Nat) : Int :=
  daysFromCivil (Int.ofNat y) (Int.ofNat mo) (Int.ofNat dd) * 86400
    + Int.ofNat (hh * 3600 + mi * 60 + ss)

/-- Model of `datetime.datetime.strptime(s, "%Y-%m-%dT%H:%M:%S")`,
yielding an absolute time in seconds; malformed input is a
`ValueError`.  The stdlib's exact day-of-month validation (e.g. no
Feb 30) is simplified to a 1..31 bound; the claims only use valid
dates. -/
def strptime (s : String) : Except Err Int :=
  match s.toList with
  | [a1, a2, a3, a4, b1, a5, a6, b2, a7, a8, b3, a9, a10, b4, a11, a12, b5, a13, a14] =>
    if (b1 == '-') && (b2 == '-') && (b3 == 'T') && (b4 == ':') && (b5 == ':') &&
       a1.isDigit && a2.isDigit && a3.isDigit && a4.isDigit && a5.isDigit &&
       a6.isDigit && a7.isDigit && a8.isDigit && a9.isDigit && a10.isDigit &&
       a11.isDigit && a12.isDigit && a13.isDigit && a14.isDigit then
      let dv := fun (c : Char) => c.toNat - 48
      let y := dv a1 * 1000 + dv a2 * 100 + dv a3 * 10 + dv a4
      let mo := dv a5 * 10 + dv a6
      let dd := dv a7 * 10 + dv a8
      let hh := dv a9 * 10 + dv a10
      let mi := dv a11 * 10 + dv a12
      let ss := dv a13 * 10 + dv a14
      if 1 ≤ mo ∧ mo ≤ 12 ∧ 1 ≤ dd ∧ dd ≤ 31 ∧ hh ≤ 23 ∧ mi ≤ 59 ∧ ss ≤ 61 then
        .ok (toSecs y mo dd hh mi ss)
      else .error .valueError
    else .error .valueError
  | _ => .error .valueError

/-- The external world reached through `find_dependencies` (network
fetch, archive extraction, dependency parsing), supplied as an input
to `lag_package`. -/
structure Env where
  findDeps : FileData → Except Err (List String)

/-- Result tuple of `lag_package`:
(release, count, lag_released in seconds, dependencies). -/
abbrev LagResult := Version × Nat × Int × List String

/-- Specification-side description of the counting loop: the first
element of a (descending) list that is `≤ t`, with its zero-based
position. -/
def firstLE : List Version → Version → Option (Version × Nat)
  | [], _ => none
  | r :: rest, t =>
    if vle r t then some (r, 0)
    else (firstLE rest t).map (fun p => (p.1, p.2 + 1))

/-- A missing dictionary key (or a field read on the empty dictionary)
raises `KeyError`. -/
def orKeyErr {α : Type} : Option α → Except Err α
  | none => .error .keyError
  | some x => .ok x

/-- The `for count, release in enumerate(reversed(releases))` loop of
`lag_package` (lines 206-216).  `g` is lookup in the normalized
releases dict, `cf` the current version's `find_source` result, `t`
the value returned by `select` (possibly `None`).  Each Python failure
point is preserved in source order: comparing against `None`, the dict
lookup `data['releases'][str(release)]`, the `['upload_time']` read on
the selected file then on the current file (each followed by its
`strptime`), and `find_dependencies`. -/
def lagLoop (g : String → Option (List FileData)) (cf : Option FileData)
    (t : Option Version) (env : Env) :
    List Version → Nat → Except Err LagResult
  | [], _ => .error .implicitNone
  | r :: rest, count =>
    match t with
    | none => .error .typeError
    | some tv =>
      if vle r tv then do
        let lst ← orKeyErr (g (vstr r))
        let tcf ← orKeyErr (find_source lst)
        let tS ← strptime tcf.upload_time
        let cfv ← orKeyErr cf
        let cS ← strptime cfv.upload_time
        let deps ← env.findDeps tcf
        return (r, count, cS - tS, deps)
      else lagLoop g cf t env rest (count + 1)

/-- The registry metadata consumed by `lag_package`: the JSON document's
`info.version` and `releases` members. -/
structure PackageData where
  info_version : String
  releases : RelDict
  deriving DecidableEq, Repr

/-- `lag_package` (lines 186-216): normalize the release keys, look up
the current version's files and its sdist, sort the coerced keys,
select the version to check, and run the counting loop from the newest
release downward. -/
def lag_package (env : Env) (data : PackageData) (spec : Spec) :
    Except Err LagResult :=
  match dictGet (normalizePass data.releases) data.info_version with
  | none => .error .keyError
  | some curLst =>
    lagLoop (dictGet (normalizePass data.releases)) (find_source curLst)
      (selectSpec spec (sortedReleases (normalizePass data.releases))) env
      (sortedReleases (normalizePass data.releases)).reverse 0

/-- `os.path.join` for two components: an absolute second component
replaces the first. -/
def pathJoin (dir name : String) : String :=
  match name.data with
  | c :: _ => if c == '/' then name else dir ++ "/" ++ name
  | [] => dir ++ "/" ++ name

/-- `os.path.abspath` on the absolute paths this program feeds it:
split on `/`, drop empty and `.` components, resolve `..` against the
accumulated components (stopping at the root). -/
def abspath (p : String) : String :=
  let comps := (splitChars (fun c => c == '/') p.data).filter
    (fun s => !(s.isEmpty) && !(s == ['.']))
  let resolved := comps.foldl
    (fun acc c => if c == ['.', '.'] then acc.dropLast else acc ++ [c])
    ([] : List (List Char))
  String.mk ('/' :: List.intercalate ['/'] resolved)

/-- `os.path.commonprefix` of two strings: their longest common
character sequence from the start (a purely textual prefix, not a
path-component one). -/
def commonPrefChars : List Char → List Char → List Char
  | x :: xs, y :: ys => if x == y then x :: commonPrefChars xs ys else []
  | _, _ => []

/-- String version of the character-wise common prefix. -/
def commonPrefStr (a b : String) : String :=
  String.mk (commonPrefChars a.toList b.toList)

/-- `is_within_directory` (lines 140-147): the character-wise common
prefix of the absolute paths must equal the absolute directory. -/
def is_within_directory (directory target : String) : Bool :=
  decide (commonPrefStr (abspath directory) (abspath target) = abspath directory)

/-- `safe_extract` (lines 149-157): check every member name against the
extraction root before extracting; a failing member raises and nothing
is written, otherwise all members are extracted at their joined
paths. -/
def safe_extract (members : List String) (path : String) :
    Except Err (List String) :=
  if members.all (fun m => is_within_directory path (pathJoin path m)) then
    .ok (members.map (fun m => pathJoin path m))
  else .error .pathTraversal

/-- The archive dispatch of `find_dependencies` (lines 138-165): `.gz`
archives go through `safe_extract`; `.zip` archives are handed to
`zipfile.ZipFile.extractall` with no validation by this program
(member placement is the zip library's, modelled as the joined path);
other extensions abort (`sys.exit(1)`). -/
def extractArchive (ext : String) (members : List String) (root : String) :
    Except Err (List String) :=
  if ext = ".gz" then safe_extract members root
  else if ext = ".zip" then .ok (members.map (fun m => pathJoin root m))
  else .error .unsupportedFormat

/-- Python `str.splitlines` restricted to `\n` separators (the only
ones the claims use): empty string gives no lines, a trailing newline
adds no empty line. -/
def splitlines (s : String) : List String :=
  match s.data with
  | [] => []
  | l =>
    let parts := splitChars (fun c => c == '\n') l
    if l.getLast? == some '\n' then (parts.dropLast).map String.mk
    else parts.map String.mk

/-- Outcome of opening `<egg-info>/requires.txt`. -/
inductive ReadResult
  | content (s : String)
  | fileNotFound
  | otherError
  deriving DecidableEq, Repr

/-- Outcome of `distutils.core.run_setup(... stop_after='init')`:
either the `install_requires` list or an exception. -/
inductive SetupResult
  | ok (reqs : List String)
  | raises
  deriving DecidableEq, Repr

/-- The extracted package directory as `get_requires` observes it: the
`glob` result for `*.egg-info`, the outcome of reading `requires.txt`
in the single egg-info directory, and the outcome of running
`setup.py`. -/
structure PkgDir where
  eggInfos : List String
  requiresRead : ReadResult
  setupResult : SetupResult
  deriving DecidableEq, Repr

/-- The interpreter state mutated by the build-script fallback. -/
structure PyState where
  cwd : String
  sysPath : List String
  deriving DecidableEq, Repr

/-- `get_requires` (lines 77-106).  Tier 1: with exactly one egg-info
directory, read `requires.txt` and split it into lines;
`FileNotFoundError` is swallowed (`requires` stays empty), any other
read error re-raises.  If tier 1 yielded nothing, the fallback runs
`setup.py`: it chdirs into `dir` and appends `dir` to `sys.path`;
because the source's `sys_path = sys.path` binds the same list object
that `append` then mutates, the later `sys.path = sys_path` writes the
mutated list back, and neither restore line runs at all when
`run_setup` raises.  The returned Bool records whether the fallback
ran. -/
def get_requires (fs : PkgDir) (dir : String) (st : PyState) :
    Except Err (List String × Bool) × PyState :=
  let tier1 : Except Err (List String) :=
    if fs.eggInfos.length = 1 then
      match fs.requiresRead with
      | .content s => .ok (splitlines s)
      | .fileNotFound => .ok []
      | .otherError => .error .readError
    else .ok []
  match tier1 with
  | .error e => (.error e, st)
  | .ok reqs =>
    if reqs.length = 0 then
      match fs.setupResult with
      | .raises => (.error .setupError, { cwd := dir, sysPath := st.sysPath ++ [dir] })
      | .ok out => (.ok (out, true), { cwd := st.cwd, sysPath := st.sysPath ++ [dir] })
    else (.ok (reqs, false), st)

/-! ### Concrete inputs used by the witnesses and counterexamples -/

/-- An sdist descriptor with the given URL and upload time. -/
def sdistFile (u t : String) : FileData :=
  { packagetype := "sdist", url := u, upload_time := t }

/-- A wheel descriptor (not a source distribution). -/
def wheelFile (u t : String) : FileData :=
  { packagetype := "bdist_wheel", url := u, upload_time := t }

/-- Scenario 1: package `foo`, current version 2.0.0, three releases
each with an sdist descriptor. -/
def fooData : PackageData :=
  { info_version := "2.0.0",
    releases :=
      [("1.0.0", [sdistFile "u1" "2018-01-01T00:00:00"]),
       ("1.5.0", [sdistFile "u2" "2018-02-01T00:00:00"]),
       ("2.0.0", [sdistFile "u3" "2018-03-01T00:00:00"])] }

/-- The exact constraint `==1.0.0`. -/
def fooSpec : Spec := [(Op.eq, ⟨1, 0, 0⟩)]

/-- The exact constraint `==2.0.0`. -/
def spec20 : Spec := [(Op.eq, ⟨2, 0, 0⟩)]

/-- An exact constraint matched by no release of `fooData`. -/
def spec99 : Spec := [(Op.eq, ⟨9, 9, 9⟩)]

/-- A world in which every dependency lookup yields `["bar>=1.0"]`. -/
def testEnv : Env := ⟨fun _ => .ok ["bar>=1.0"]⟩

/-- A package whose registry "current" tag (2.0.0) was uploaded before
the release 1.0.0 selected by the constraint: its time lag is
negative. -/
def negData : PackageData :=
  { info_version := "2.0.0",
    releases :=
      [("1.0.0", [sdistFile "u1" "2018-02-01T00:00:00"]),
       ("2.0.0", [sdistFile "u2" "2018-01-01T00:00:00"])] }

/-- A release dictionary with one non-normalized key. -/
def barDict : RelDict := [("1.0", [sdistFile "u" "2018-01-01T00:00:00"])]

/-! ### Order lemmas for `vle` -/

theorem vle_iff (a b : Version) : vle a b = true ↔
    (a.major < b.major ∨ (a.major = b.major ∧
      (a.minor < b.minor ∨ (a.minor = b.minor ∧ a.patch ≤ b.patch)))) := by
  unfold vle
  split_ifs with h1 h2 <;> simp_all

theorem vle_refl (a : Version) : vle a a = true := by
  simp [vle_iff]

theorem vle_trans {a b c : Version} (h1 : vle a b = true)
    (h2 : vle b c = true) : vle a c = true := by
  rw [vle_iff] at h1 h2 ⊢
  omega

theorem vle_total {a b : Version} (h : vle a b = false) : vle b a = true := by
  have h2 : ¬(vle a b = true) := by simp [h]
  rw [vle_iff] at h2
  rw [vle_iff]
  omega

theorem vlt_imp_vle {a b : Version} (h : vlt a b = true) : vle a b = true := by
  unfold vlt at h
  cases hb : vle b a with
  | true => rw [hb] at h; simp at h
  | false => exact vle_total hb

/-! ### C10: `find_source` -/

/-- C10: `find_source` is total and order-dependent: it returns the
first descriptor in list order tagged `sdist` (members after it never
influence the result), and yields the empty dictionary (`none`) rather
than raising when no descriptor is tagged `sdist`. -/
theorem C10_find_source (l1 l2 : List FileData) (f : FileData) :
    ((∀ g ∈ l1, g.packagetype ≠ "sdist") → f.packagetype = "sdist" →
      find_source (l1 ++ f :: l2) = some f) ∧
    ((∀ g ∈ l1, g.packagetype ≠ "sdist") → find_source l1 = none) := by
  constructor
  · intro hnone hf
    induction l1 with
    | nil => simp [find_source, hf]
    | cons a rest ih =>
      have ha := hnone a (by simp)
      simp only [List.cons_append, find_source, if_neg ha]
      exact ih (fun g hg => hnone g (List.mem_cons_of_mem a hg))
  · intro hnone
    induction l1 with
    | nil => rfl
    | cons a rest ih =>
      have ha := hnone a (by simp)
      simp only [find_source, if_neg ha]
      exact ih (fun g hg => hnone g (List.mem_cons_of_mem a hg))

/-- Witness for C10 at a concrete descriptor list: the first of two
sdist descriptors wins, regardless of what follows it. -/
theorem C10_find_source_witness :
    find_source [wheelFile "w" "t0", sdistFile "a" "t1", sdistFile "b" "t2"]
      = some (sdistFile "a" "t1") := by
  have h := C10_find_source [wheelFile "w" "t0"] [sdistFile "b" "t2"]
    (sdistFile "a" "t1")
  exact h.1 (by decide) (by decide)

/-! ### C2: archive extraction and path traversal -/

/-- C2 counterexample: a zip member whose resolved path escapes the
extraction root is extracted without any error (the zip branch performs
no validation), and a tar member resolving to a sibling directory that
shares the root as a string prefix passes `is_within_directory` and is
extracted as well — so escaping members do not always abort
extraction. -/
theorem C2_counterexample :
    extractArchive ".zip" ["../evil"] "/tmp/extract"
        = .ok ["/tmp/extract/../evil"] ∧
    is_within_directory "/tmp/extract" (pathJoin "/tmp/extract" "../evil")
        = false ∧
    abspath (pathJoin "/tmp/extract" "../evil") = "/tmp/evil" ∧
    extractArchive ".gz" ["../xy/pkg"] "/tmp/x" = .ok ["/tmp/x/../xy/pkg"] ∧
    abspath "/tmp/x/../xy/pkg" = "/tmp/xy/pkg" ∧
    is_within_directory "/tmp/x" (pathJoin "/tmp/x" "../xy/pkg") = true :=
  ⟨rfl, rfl, rfl, rfl, rfl, rfl⟩

/-- C2 amended: for gzip-tar archives, any member failing the
character-prefix containment check aborts extraction with the traversal
error before anything is written, and extraction succeeds when all
members pass; zip archives are extracted by this code with no
validation at all. -/
theorem C2_extraction_amended (root : String) (members : List String) :
    ((∃ m ∈ members, is_within_directory root (pathJoin root m) = false) →
      extractArchive ".gz" members root = .error .pathTraversal) ∧
    ((∀ m ∈ members, is_within_directory root (pathJoin root m) = true) →
      extractArchive ".gz" members root
        = .ok (members.map (fun m => pathJoin root m))) ∧
    extractArchive ".zip" members root
        = .ok (members.map (fun m => pathJoin root m)) := by
  refine ⟨?_, ?_, ?_⟩
  · rintro ⟨m, hm, hfail⟩
    have hall : members.all (fun m => is_within_directory root (pathJoin root m))
        = false := by
      rw [Bool.eq_false_iff]
      intro hcontra
      rw [List.all_eq_true] at hcontra
      have := hcontra m hm
      rw [hfail] at this
      exact Bool.false_ne_true this
    unfold extractArchive safe_extract
    rw [if_pos rfl]
    simp [hall]
  · intro hall
    have hall2 : members.all (fun m => is_within_directory root (pathJoin root m))
        = true := List.all_eq_true.mpr hall
    unfold extractArchive safe_extract
    rw [if_pos rfl]
    simp [hall2]
  · unfold extractArchive
    rw [if_neg (by decide), if_pos rfl]

/-- Witness for C2's amended statement: a benign member passes the tar
check and is written inside the root; a traversing member aborts; a zip
archive is extracted unconditionally. -/
theorem C2_extraction_amended_witness :
    extractArchive ".gz" ["pkg/setup.py"] "/tmp/e" = .ok ["/tmp/e/pkg/setup.py"] ∧
    extractArchive ".gz" ["../bad"] "/tmp/e" = .error .pathTraversal ∧
    extractArchive ".zip" ["pkg/setup.py"] "/tmp/e" = .ok ["/tmp/e/pkg/setup.py"] := by
  have h1 := C2_extraction_amended "/tmp/e" ["pkg/setup.py"]
  have h2 := C2_extraction_amended "/tmp/e" ["../bad"]
  exact ⟨h1.2.1 (by decide), h2.1 ⟨"../bad", by decide, by decide⟩, h1.2.2⟩

/-! ### C6 and C7: `get_requires` -/

/-- C6: with exactly one egg-info directory, a readable non-empty
`requires.txt` is returned line-by-line with no fallback invocation and
no state change; a missing file falls through to the `setup.py`
fallback; any other read error is fatal. -/
theorem C6_get_requires (fs : PkgDir) (dir : String) (st : PyState) (s : String)
    (hone : fs.eggInfos.length = 1) :
    (fs.requiresRead = .content s → splitlines s ≠ [] →
      get_requires fs dir st = (.ok (splitlines s, false), st)) ∧
    (fs.requiresRead = .fileNotFound →
      ((∀ out, fs.setupResult = .ok out →
          get_requires fs dir st
            = (.ok (out, true), ⟨st.cwd, st.sysPath ++ [dir]⟩)) ∧
        (fs.setupResult = .raises →
          get_requires fs dir st
            = (.error .setupError, ⟨dir, st.sysPath ++ [dir]⟩)))) ∧
    (fs.requiresRead = .otherError →
      get_requires fs dir st = (.error .readError, st)) := by
  refine ⟨?_, ?_, ?_⟩
  · intro hread hne
    have hlen : ¬((splitlines s).length = 0) := by
      simpa [List.length_eq_zero] using hne
    unfold get_requires
    simp [hone, hread, hlen]
  · intro hread
    constructor
    · intro out hsetup
      unfold get_requires
      simp [hone, hread, hsetup]
    · intro hsetup
      unfold get_requires
      simp [hone, hread, hsetup]
  · intro hread
    unfold get_requires
    simp [hone, hread]

/-- Witness for C6: an egg-info with `requires.txt` containing
`bar>=1.0` yields exactly that declaration, without running the
fallback even though the fallback would raise. -/
theorem C6_get_requires_witness :
    get_requires ⟨["/p/foo.egg-info"], .content "bar>=1.0", .raises⟩
        "/tmp/pkg" ⟨"/home", ["/usr/lib"]⟩
      = (.ok (["bar>=1.0"], false), ⟨"/home", ["/usr/lib"]⟩) := by
  have h := C6_get_requires ⟨["/p/foo.egg-info"], .content "bar>=1.0", .raises⟩
    "/tmp/pkg" ⟨"/home", ["/usr/lib"]⟩ "bar>=1.0" (by decide)
  exact h.1 rfl (by decide)

/-- C7 counterexample: a build-script fallback run that succeeds leaves
the appended package directory on the module search path — the prior
search path is not restored (and when the introspection raises, the
working directory is not restored either). -/
theorem C7_counterexample :
    (get_requires ⟨[], .fileNotFound, .ok ["x"]⟩ "/tmp/pkg"
        ⟨"/home", ["/usr/lib"]⟩).1 = .ok (["x"], true) ∧
    (get_requires ⟨[], .fileNotFound, .ok ["x"]⟩ "/tmp/pkg"
        ⟨"/home", ["/usr/lib"]⟩).2.sysPath ≠ ["/usr/lib"] ∧
    (get_requires ⟨[], .fileNotFound, .raises⟩ "/tmp/pkg"
        ⟨"/home", ["/usr/lib"]⟩).2.cwd ≠ "/home" := by
  refine ⟨rfl, by decide, by decide⟩

/-- C7 amended: when the fallback runs, a successful introspection
restores the working directory but leaves the package directory
appended to the search path (the saved `sys_path` aliases the mutated
list, so the restore writes the mutated list back); a raising
introspection restores nothing — the working directory stays the
package directory and the search path keeps the appended entry. -/
theorem C7_state_amended (fs : PkgDir) (dir : String) (st : PyState)
    (hfall : fs.eggInfos.length ≠ 1 ∨ fs.requiresRead = .fileNotFound ∨
      (∃ s, fs.requiresRead = .content s ∧ splitlines s = [])) :
    (∀ out, fs.setupResult = .ok out →
      (get_requires fs dir st).2 = ⟨st.cwd, st.sysPath ++ [dir]⟩) ∧
    (fs.setupResult = .raises →
      (get_requires fs dir st).2 = ⟨dir, st.sysPath ++ [dir]⟩) := by
  have htier : (if fs.eggInfos.length = 1 then
      match fs.requiresRead with
      | .content s => Except.ok (splitlines s)
      | .fileNotFound => Except.ok []
      | .otherError => Except.error Err.readError
    else Except.ok []) = Except.ok ([] : List String) := by
    rcases hfall with h | h | ⟨s, hs, hempty⟩
    · rw [if_neg h]
    · by_cases hone : fs.eggInfos.length = 1
      · rw [if_pos hone, h]
      · rw [if_neg hone]
    · by_cases hone : fs.eggInfos.length = 1
      · rw [if_pos hone, hs]
        show Except.ok (splitlines s) = Except.ok []
        rw [hempty]
      · rw [if_neg hone]
  constructor
  · intro out hsetup
    unfold get_requires
    rw [htier]
    simp [hsetup]
  · intro hsetup
    unfold get_requires
    rw [htier]
    simp [hsetup]

/-- Witness for C7's amended statement at concrete states: the two
fallback outcomes and their final interpreter states. -/
theorem C7_state_amended_witness :
    (get_requires ⟨[], .fileNotFound, .ok ["x"]⟩ "/tmp/pkg"
        ⟨"/home", ["/usr/lib"]⟩).2 = ⟨"/home", ["/usr/lib", "/tmp/pkg"]⟩ ∧
    (get_requires ⟨[], .fileNotFound, .raises⟩ "/tmp/pkg"
        ⟨"/home", ["/usr/lib"]⟩).2 = ⟨"/tmp/pkg", ["/usr/lib", "/tmp/pkg"]⟩ := by
  have h1 := C7_state_amended ⟨[], .fileNotFound, .ok ["x"]⟩ "/tmp/pkg"
    ⟨"/home", ["/usr/lib"]⟩ (Or.inr (Or.inl rfl))
  have h2 := C7_state_amended ⟨[], .fileNotFound, .raises⟩ "/tmp/pkg"
    ⟨"/home", ["/usr/lib"]⟩ (Or.inr (Or.inl rfl))
  exact ⟨h1.1 ["x"] rfl, h2.2 rfl⟩

/-! ### C5: the normalization pass -/

theorem mem_dictKeys_dictSet {k : String} {d : RelDict} (k2 : String)
    (v : List FileData) (h : k ∈ dictKeys d) :
    k ∈ dictKeys (dictSet d k2 v) := by
  induction d with
  | nil => simp [dictKeys] at h
  | cons a rest ih =>
    obtain ⟨ka, va⟩ := a
    rw [dictKeys, List.map_cons, List.mem_cons] at h
    by_cases hk : ka = k2
    · rw [dictSet, if_pos hk, dictKeys, List.map_cons, List.mem_cons]
      rcases h with h | h
      · exact Or.inl (h.trans hk)
      · exact Or.inr h
    · rw [dictSet, if_neg hk, dictKeys, List.map_cons, List.mem_cons]
      rcases h with h | h
      · exact Or.inl h
      · exact Or.inr (ih h)

theorem mem_dictKeys_dictSet_self (d : RelDict) (k : String)
    (v : List FileData) : k ∈ dictKeys (dictSet d k v) := by
  induction d with
  | nil => simp [dictSet, dictKeys]
  | cons a rest ih =>
    obtain ⟨ka, va⟩ := a
    by_cases hk : ka = k
    · rw [dictSet, if_pos hk, dictKeys, List.map_cons]
      exact List.mem_cons_self _ _
    · rw [dictSet, if_neg hk, dictKeys, List.map_cons]
      exact List.mem_cons_of_mem _ ih

theorem dictGet_some_of_mem {k : String} {d : RelDict}
    (h : k ∈ dictKeys d) : ∃ v, dictGet d k = some v := by
  induction d with
  | nil => simp [dictKeys] at h
  | cons a rest ih =>
    obtain ⟨ka, va⟩ := a
    rw [dictKeys, List.map_cons, List.mem_cons] at h
    by_cases hk : ka = k
    · exact ⟨va, by rw [dictGet, if_pos hk]⟩
    · rcases h with h | h
      · exact absurd h.symm hk
      · obtain ⟨v, hv⟩ := ih h
        exact ⟨v, by rw [dictGet, if_neg hk, hv]⟩

theorem mem_dictKeys_normStep {k : String} {acc : RelDict} (r : String)
    (h : k ∈ dictKeys acc) : k ∈ dictKeys (normStep acc r) := by
  simp only [normStep]
  split_ifs with hne
  · cases hget : dictGet acc r with
    | none => exact h
    | some rd => exact mem_dictKeys_dictSet _ _ h
  · exact h

theorem mem_dictKeys_foldl_normStep {k : String} :
    ∀ (L : List String) (acc : RelDict), k ∈ dictKeys acc →
      k ∈ dictKeys (L.foldl normStep acc)
  | [], _acc, h => h
  | x :: xs, _acc, h =>
    mem_dictKeys_foldl_normStep xs (normStep _acc x) (mem_dictKeys_normStep x h)

theorem coerceStr_mem_normStep {k : String} {acc : RelDict}
    (h : k ∈ dictKeys acc) : coerceStr k ∈ dictKeys (normStep acc k) := by
  simp only [normStep]
  split_ifs with hne
  · obtain ⟨v, hv⟩ := dictGet_some_of_mem h
    rw [hv]
    exact mem_dictKeys_dictSet_self _ _ _
  · rw [not_not] at hne
    exact hne ▸ h

theorem coerceStr_mem_foldl_normStep :
    ∀ (L : List String) (acc : RelDict), (∀ x ∈ L, x ∈ dictKeys acc) →
      ∀ k ∈ L, coerceStr k ∈ dictKeys (L.foldl normStep acc) := by
  intro L
  induction L with
  | nil => intro acc hinv k hk; simp at hk
  | cons x xs ih =>
    intro acc hinv k hk
    rw [List.mem_cons] at hk
    rw [List.foldl_cons]
    rcases hk with rfl | hk
    · exact mem_dictKeys_foldl_normStep xs _
        (coerceStr_mem_normStep (hinv k (List.mem_cons_self _ _)))
    · exact ih (normStep acc x)
        (fun y hy => mem_dictKeys_normStep x
          (hinv y (List.mem_cons_of_mem _ hy)))
        k hk

/-- C5 counterexample: after the normalization pass over a dictionary
whose only key is the raw string `"1.0"`, the mapping holds two entries
for the same normalized version (`"1.0"` and `"1.0.0"`), and the
ordered release list used for counting contains version 1.0.0 twice. -/
theorem C5_counterexample :
    dictKeys (normalizePass barDict) = ["1.0", "1.0.0"] ∧
    sortedReleases (normalizePass barDict)
      = [⟨1, 0, 0⟩, ⟨1, 0, 0⟩] :=
  ⟨rfl, rfl⟩

/-- C5 amended: the normalization pass retains every raw key and adds
the normalized spelling of every key, so differently formatted
equivalent version strings yield multiple entries, and the same
normalized version can appear more than once in the ordered release
list built from the keys. -/
theorem C5_normalize_amended (d : RelDict) (k : String)
    (h : k ∈ dictKeys d) :
    k ∈ dictKeys (normalizePass d) ∧
    coerceStr k ∈ dictKeys (normalizePass d) := by
  unfold normalizePass
  exact ⟨mem_dictKeys_foldl_normStep (d.map Prod.fst) d h,
    coerceStr_mem_foldl_normStep (d.map Prod.fst) d (fun x hx => hx) k h⟩

/-- Witness for C5's amended statement at `barDict`: the raw key
`"1.0"` survives the pass and its normalized form `"1.0.0"` is
added. -/
theorem C5_normalize_amended_witness :
    "1.0" ∈ dictKeys (normalizePass barDict) ∧
    coerceStr "1.0" ∈ dictKeys (normalizePass barDict) :=
  C5_normalize_amended barDict "1.0" (by decide)

/-! ### `select`: maximum of the matching candidates -/

theorem foldl_maxStep_spec :
    ∀ (l : List Version) (acc : Option Version) (v : Version),
      l.foldl maxStep acc = some v →
      (acc = some v ∨ v ∈ l) ∧ (∀ m, acc = some m → vle m v = true) ∧
        (∀ x ∈ l, vle x v = true) := by
  intro l
  induction l with
  | nil =>
    intro acc v h
    rw [List.foldl_nil] at h
    refine ⟨Or.inl h, ?_, by simp⟩
    intro m hm
    rw [h] at hm
    injection hm with hm
    rw [hm]
    exact vle_refl m
  | cons x xs ih =>
    intro acc v h
    rw [List.foldl_cons] at h
    obtain ⟨h1, h2, h3⟩ := ih (maxStep acc x) v h
    have hstep : ∀ m, acc = some m →
        maxStep acc x = some (if vle x m then m else x) := by
      intro m hm
      rw [hm, maxStep]
    refine ⟨?_, ?_, ?_⟩
    · rcases h1 with h1 | h1
      · cases acc with
        | none =>
          injection h1 with h1
          exact Or.inr (h1 ▸ List.mem_cons_self x xs)
        | some m =>
          rw [hstep m rfl] at h1
          injection h1 with h1
          by_cases hc : vle x m = true
          · rw [if_pos hc] at h1
            exact Or.inl (by rw [h1])
          · rw [if_neg hc] at h1
            exact Or.inr (h1 ▸ List.mem_cons_self x xs)
      · exact Or.inr (List.mem_cons_of_mem x h1)
    · intro m hm
      have hm1 := h2 (if vle x m then m else x) (hstep m hm)
      by_cases hc : vle x m = true
      · rwa [if_pos hc] at hm1
      · rw [if_neg hc] at hm1
        exact vle_trans (vle_total (Bool.eq_false_iff.mpr hc)) hm1
    · intro y hy
      rcases List.mem_cons.mp hy with rfl | hmem
      · cases acc with
        | none => exact h2 y rfl
        | some m =>
          have hm1 := h2 (if vle y m then m else y) (hstep m rfl)
          by_cases hc : vle y m = true
          · rw [if_pos hc] at hm1
            exact vle_trans hc hm1
          · rwa [if_neg hc] at hm1
      · exact h3 y hmem

theorem maxOf_spec {l : List Version} {v : Version} (h : maxOf l = some v) :
    v ∈ l ∧ ∀ x ∈ l, vle x v = true := by
  obtain ⟨h1, _, h3⟩ := foldl_maxStep_spec l none v h
  rcases h1 with h1 | h1
  · exact absurd h1 (by simp)
  · exact ⟨h1, h3⟩

theorem selectSpec_some {s : Spec} {vs : List Version} {v : Version}
    (h : selectSpec s vs = some v) :
    v ∈ vs ∧ specMatches s v = true ∧
      ∀ w ∈ vs, specMatches s w = true → vle w v = true := by
  unfold selectSpec at h
  obtain ⟨hmem, hub⟩ := maxOf_spec h
  rw [List.mem_filter] at hmem
  exact ⟨hmem.1, hmem.2, fun w hw hmatch =>
    hub w (List.mem_filter.mpr ⟨hw, hmatch⟩)⟩

theorem selectSpec_none {s : Spec} {vs : List Version}
    (h : ∀ w ∈ vs, specMatches s w = false) : selectSpec s vs = none := by
  unfold selectSpec
  have hnil : vs.filter (fun v => specMatches s v) = [] := by
    rw [List.filter_eq_nil_iff]
    intro a ha
    simp [h a ha]
  rw [hnil]
  rfl

/-! ### The counting loop -/

theorem firstLE_cons_pos {a t : Version} {rest : List Version}
    (h : vle a t = true) : firstLE (a :: rest) t = some (a, 0) := by
  rw [firstLE, if_pos h]

theorem firstLE_cons_neg {a t : Version} {rest : List Version}
    (h : ¬(vle a t = true)) :
    firstLE (a :: rest) t
      = (firstLE rest t).map (fun p => (p.1, p.2 + 1)) := by
  rw [firstLE, if_neg h]

theorem firstLE_le :
    ∀ {desc : List Version} {t r : Version} {c : Nat},
      firstLE desc t = some (r, c) → vle r t = true := by
  intro desc
  induction desc with
  | nil => intro t r c h; simp [firstLE] at h
  | cons a rest ih =>
    intro t r c h
    by_cases hc : vle a t = true
    · rw [firstLE_cons_pos hc] at h
      simp only [Option.some.injEq, Prod.mk.injEq] at h
      exact h.1 ▸ hc
    · rw [firstLE_cons_neg hc] at h
      cases hrec : firstLE rest t with
      | none => rw [hrec] at h; simp at h
      | some p =>
        obtain ⟨r0, c0⟩ := p
        rw [hrec] at h
        simp only [Option.map_some', Option.some.injEq, Prod.mk.injEq] at h
        exact h.1 ▸ ih hrec

theorem firstLE_mono :
    ∀ {desc : List Version} {t1 t2 r1 r2 : Version} {c1 c2 : Nat},
      firstLE desc t1 = some (r1, c1) → firstLE desc t2 = some (r2, c2) →
      vle r2 r1 = true → c1 ≤ c2 := by
  intro desc
  induction desc with
  | nil => intro t1 t2 r1 r2 c1 c2 h1 h2 hle; simp [firstLE] at h1
  | cons a rest ih =>
    intro t1 t2 r1 r2 c1 c2 h1 h2 hle
    by_cases ha1 : vle a t1 = true
    · rw [firstLE_cons_pos ha1] at h1
      simp only [Option.some.injEq, Prod.mk.injEq] at h1
      omega
    · rw [firstLE_cons_neg ha1] at h1
      cases hrec1 : firstLE rest t1 with
      | none => rw [hrec1] at h1; simp at h1
      | some p1 =>
        obtain ⟨r1x, c1x⟩ := p1
        rw [hrec1] at h1
        simp only [Option.map_some', Option.some.injEq, Prod.mk.injEq] at h1
        obtain ⟨hr1, hc1⟩ := h1
        subst hr1
        by_cases ha2 : vle a t2 = true
        · rw [firstLE_cons_pos ha2] at h2
          simp only [Option.some.injEq, Prod.mk.injEq] at h2
          obtain ⟨hr2, -⟩ := h2
          subst hr2
          exact absurd (vle_trans hle (firstLE_le hrec1)) ha1
        · rw [firstLE_cons_neg ha2] at h2
          cases hrec2 : firstLE rest t2 with
          | none => rw [hrec2] at h2; simp at h2
          | some p2 =>
            obtain ⟨r2x, c2x⟩ := p2
            rw [hrec2] at h2
            simp only [Option.map_some', Option.some.injEq, Prod.mk.injEq] at h2
            obtain ⟨hr2, hc2⟩ := h2
            subst hr2
            have := ih hrec1 hrec2 hle
            omega

theorem lagLoop_none_err (g : String → Option (List FileData))
    (cf : Option FileData) (env : Env) (desc : List Version) (count : Nat) :
    ∃ e, lagLoop g cf none env desc count = .error e := by
  cases desc with
  | nil => exact ⟨.implicitNone, rfl⟩
  | cons a rest => exact ⟨.typeError, rfl⟩

theorem orKeyErr_eq_ok {α : Type} {o : Option α} {a : α} :
    orKeyErr o = .ok a ↔ o = some a := by
  cases o <;> simp [orKeyErr]

theorem except_bind_ok {α β : Type} {x : Except Err α}
    {f : α → Except Err β} {b : β} :
    (x >>= f) = .ok b ↔ ∃ a, x = .ok a ∧ f a = .ok b := by
  cases x with
  | error e => simp [Bind.bind, Except.bind]
  | ok a => simp [Bind.bind, Except.bind]

theorem lagLoop_ok_inv {g : String → Option (List FileData)}
    {cf : Option FileData} {t : Option Version} {env : Env} :
    ∀ {desc : List Version} {count : Nat} {r : Version} {cnt : Nat}
      {lag : Int} {deps : List String},
      lagLoop g cf t env desc count = .ok (r, cnt, lag, deps) →
      ∃ tv k lst tcf cfv tS cS,
        t = some tv ∧ firstLE desc tv = some (r, k) ∧ cnt = count + k ∧
        g (vstr r) = some lst ∧ find_source lst = some tcf ∧
        cf = some cfv ∧
        strptime tcf.upload_time = .ok tS ∧
        strptime cfv.upload_time = .ok cS ∧
        lag = cS - tS ∧ env.findDeps tcf = .ok deps := by
  intro desc
  induction desc with
  | nil => intro count r cnt lag deps h; simp [lagLoop] at h
  | cons a rest ih =>
    intro count r cnt lag deps h
    cases t with
    | none => simp [lagLoop] at h
    | some tv =>
      rw [lagLoop] at h
      by_cases hle : vle a tv = true
      · rw [if_pos hle] at h
        rw [except_bind_ok] at h
        obtain ⟨lst, hlst, h⟩ := h
        rw [except_bind_ok] at h
        obtain ⟨tcf, htcf, h⟩ := h
        rw [except_bind_ok] at h
        obtain ⟨tS, hts, h⟩ := h
        rw [except_bind_ok] at h
        obtain ⟨cfv, hcfv, h⟩ := h
        rw [except_bind_ok] at h
        obtain ⟨cS, hcs, h⟩ := h
        rw [except_bind_ok] at h
        obtain ⟨deps0, hdeps, h⟩ := h
        simp only [pure, Except.pure, Except.ok.injEq, Prod.mk.injEq] at h
        obtain ⟨hr, hcnt, hlag, hdeps2⟩ := h
        subst hr hcnt hlag hdeps2
        exact ⟨tv, 0, lst, tcf, cfv, tS, cS, rfl, firstLE_cons_pos hle,
          by omega, orKeyErr_eq_ok.mp hlst, orKeyErr_eq_ok.mp htcf,
          orKeyErr_eq_ok.mp hcfv, hts, hcs, rfl, hdeps⟩
      · rw [if_neg hle] at h
        obtain ⟨tv2, k, lst, tcf, cfv, tS, cS, htv, hfirst, hcnt,
          hg, hfs, hcf, hts, hcs, hlag, hdeps⟩ := ih h
        injection htv with htv
        subst htv
        refine ⟨tv, k + 1, lst, tcf, cfv, tS, cS, rfl, ?_, by omega,
          hg, hfs, hcf, hts, hcs, hlag, hdeps⟩
        rw [firstLE_cons_neg hle, hfirst]
        rfl

/-! ### C1, C3, C4, C8, C9: `lag_package` -/

/-- C1: in the concrete scenario (current version 2.0.0, releases
1.0.0/1.5.0/2.0.0 each with an sdist, constraint `==1.0.0`) the
selected version is 1.0.0 and the release count is 2; in general the
count returned by `lag_package` is the zero-based position, in the
descending release order, of the first release `≤` the selected
version. -/
theorem C1_release_count :
    lag_package testEnv fooData fooSpec
      = .ok (⟨1, 0, 0⟩, 2, 5097600, ["bar>=1.0"]) ∧
    ∀ env data spec r cnt lag deps,
      lag_package env data spec = .ok (r, cnt, lag, deps) →
      ∃ tv, selectSpec spec (sortedReleases (normalizePass data.releases))
          = some tv ∧
        firstLE (sortedReleases (normalizePass data.releases)).reverse tv
          = some (r, cnt) := by
  constructor
  · rfl
  · intro env data spec r cnt lag deps h
    unfold lag_package at h
    cases hcur : dictGet (normalizePass data.releases) data.info_version with
    | none => rw [hcur] at h; simp at h
    | some curLst =>
      rw [hcur] at h
      obtain ⟨tv, k, _, _, _, _, _, htv, hfirst, hcnt, -, -, -, -, -, -, -⟩ :=
        lagLoop_ok_inv h
      exact ⟨tv, htv, by rw [hcnt]; simpa using hfirst⟩

/-- Witness for C1's general part, discharged on the scenario run. -/
theorem C1_release_count_witness :
    ∃ tv, selectSpec fooSpec (sortedReleases (normalizePass fooData.releases))
        = some tv ∧
      firstLE (sortedReleases (normalizePass fooData.releases)).reverse tv
        = some (⟨1, 0, 0⟩, 2) :=
  C1_release_count.2 testEnv fooData fooSpec ⟨1, 0, 0⟩ 2 5097600
    ["bar>=1.0"] rfl

/-- C3: `select` returns the highest candidate satisfying the
constraint when one exists, and returns no version when no candidate
matches; in that case `lag_package` fails (comparing a release against
the `None` selection raises) instead of proceeding. -/
theorem C3_selection (s : Spec) (vs : List Version) (v : Version) (env : Env)
    (data : PackageData) (spec2 : Spec) :
    (selectSpec s vs = some v →
      v ∈ vs ∧ specMatches s v = true ∧
        ∀ w ∈ vs, specMatches s w = true → vle w v = true) ∧
    ((∀ w ∈ vs, specMatches s w = false) → selectSpec s vs = none) ∧
    (selectSpec spec2 (sortedReleases (normalizePass data.releases)) = none →
      ∃ e, lag_package env data spec2 = .error e) := by
  refine ⟨fun h => selectSpec_some h, fun h => selectSpec_none h,
    fun hnone => ?_⟩
  unfold lag_package
  cases hcur : dictGet (normalizePass data.releases) data.info_version with
  | none => exact ⟨.keyError, rfl⟩
  | some curLst =>
    rw [hnone]
    exact lagLoop_none_err _ _ _ _ _

/-- Witness for C3 at concrete inputs: a singleton candidate set with a
matching constraint, and a constraint matched by no release of the
scenario package, on which `lag_package` errors. -/
theorem C3_selection_witness :
    ((⟨1, 0, 0⟩ : Version) ∈ [(⟨1, 0, 0⟩ : Version)] ∧
      specMatches fooSpec ⟨1, 0, 0⟩ = true ∧
      ∀ w ∈ [(⟨1, 0, 0⟩ : Version)], specMatches fooSpec w = true →
        vle w ⟨1, 0, 0⟩ = true) ∧
    ∃ e, lag_package testEnv fooData spec99 = .error e := by
  have h := C3_selection fooSpec [⟨1, 0, 0⟩] ⟨1, 0, 0⟩ testEnv fooData spec99
  exact ⟨h.1 rfl, h.2.2 rfl⟩

/-- C4: `lag_package` never returns a result when the current version's
release carries no sdist descriptor, nor when the counted release
carries none: a successful run requires both sdists to exist (the
`{}` placeholder from `find_source` is never carried into a result —
the `['upload_time']` access on it fails first). -/
theorem C4_missing_sdist (env : Env) (data : PackageData) (spec : Spec)
    (r : Version) (cnt : Nat) (lag : Int) (deps : List String)
    (h : lag_package env data spec = .ok (r, cnt, lag, deps)) :
    (∃ curLst cfv,
      dictGet (normalizePass data.releases) data.info_version = some curLst ∧
      find_source curLst = some cfv) ∧
    (∃ lst tcf,
      dictGet (normalizePass data.releases) (vstr r) = some lst ∧
      find_source lst = some tcf) := by
  unfold lag_package at h
  cases hcur : dictGet (normalizePass data.releases) data.info_version with
  | none => rw [hcur] at h; simp at h
  | some curLst =>
    rw [hcur] at h
    obtain ⟨_, _, lst, tcf, cfv, _, _, -, -, -, hg, hfs, hcf, -, -, -, -⟩ :=
      lagLoop_ok_inv h
    exact ⟨⟨curLst, cfv, rfl, hcf⟩, ⟨lst, tcf, hg, hfs⟩⟩

/-- Witness for C4 on the scenario run, where both sdists exist. -/
theorem C4_missing_sdist_witness :
    (∃ curLst cfv,
      dictGet (normalizePass fooData.releases) fooData.info_version
        = some curLst ∧ find_source curLst = some cfv) ∧
    (∃ lst tcf,
      dictGet (normalizePass fooData.releases) (vstr ⟨1, 0, 0⟩)
        = some lst ∧ find_source lst = some tcf) :=
  C4_missing_sdist testEnv fooData fooSpec ⟨1, 0, 0⟩ 2 5097600
    ["bar>=1.0"] rfl

/-- C8: on the same package data, a constraint selecting a newer
release never yields a larger release count than one selecting an older
release — the count is antitone in the selected version. -/
theorem C8_count_antitone (env : Env) (data : PackageData)
    (spec1 spec2 : Spec) (r1 r2 : Version) (c1 c2 : Nat) (l1 l2 : Int)
    (d1 d2 : List String)
    (h1 : lag_package env data spec1 = .ok (r1, c1, l1, d1))
    (h2 : lag_package env data spec2 = .ok (r2, c2, l2, d2))
    (hnewer : vlt r2 r1 = true) : c1 ≤ c2 := by
  unfold lag_package at h1 h2
  cases hcur : dictGet (normalizePass data.releases) data.info_version with
  | none => rw [hcur] at h1; simp at h1
  | some curLst =>
    rw [hcur] at h1 h2
    obtain ⟨tv1, k1, _, _, _, _, _, -, hfirst1, hcnt1, -, -, -, -, -, -, -⟩ :=
      lagLoop_ok_inv h1
    obtain ⟨tv2, k2, _, _, _, _, _, -, hfirst2, hcnt2, -, -, -, -, -, -, -⟩ :=
      lagLoop_ok_inv h2
    have := firstLE_mono hfirst1 hfirst2 (vlt_imp_vle hnewer)
    omega

/-- Witness for C8: on the scenario data, the constraint selecting
2.0.0 yields count 0 and the one selecting 1.0.0 yields count 2. -/
theorem C8_count_antitone_witness : (0 : Nat) ≤ 2 :=
  C8_count_antitone testEnv fooData spec20 fooSpec ⟨2, 0, 0⟩ ⟨1, 0, 0⟩
    0 2 0 5097600 ["bar>=1.0"] ["bar>=1.0"] rfl rfl rfl

/-- C9: the time lag of a successful `lag_package` run is exactly the
current release's upload timestamp minus the selected release's upload
timestamp, both parsed with the fixed `%Y-%m-%dT%H:%M:%S` format; a
negative difference is returned as-is, as the concrete run whose
current release predates the selected one shows. -/
theorem C9_time_lag :
    (∀ env data spec r cnt lag deps,
      lag_package env data spec = .ok (r, cnt, lag, deps) →
      ∃ curLst cfv lst tcf tS cS,
        dictGet (normalizePass data.releases) data.info_version
          = some curLst ∧
        find_source curLst = some cfv ∧
        dictGet (normalizePass data.releases) (vstr r) = some lst ∧
        find_source lst = some tcf ∧
        strptime tcf.upload_time = .ok tS ∧
        strptime cfv.upload_time = .ok cS ∧
        lag = cS - tS) ∧
    lag_package testEnv negData fooSpec
      = .ok (⟨1, 0, 0⟩, 1, -2678400, ["bar>=1.0"]) := by
  constructor
  · intro env data spec r cnt lag deps h
    unfold lag_package at h
    cases hcur : dictGet (normalizePass data.releases) data.info_version with
    | none => rw [hcur] at h; simp at h
    | some curLst =>
      rw [hcur] at h
      obtain ⟨_, _, lst, tcf, cfv, tS, cS, -, -, -, hg, hfs, hcf, hts,
        hcs, hlag, -⟩ := lagLoop_ok_inv h
      exact ⟨curLst, cfv, lst, tcf, tS, cS, rfl, hcf, hg, hfs, hts, hcs, hlag⟩
  · rfl

/-- Witness for C9's general part, discharged on the negative-lag
run. -/
theorem C9_time_lag_witness :
    ∃ curLst cfv lst tcf tS cS,
      dictGet (normalizePass negData.releases) negData.info_version
        = some curLst ∧
      find_source curLst = some cfv ∧
      dictGet (normalizePass negData.releases) (vstr ⟨1, 0, 0⟩) = some lst ∧
      find_source lst = some tcf ∧
      strptime tcf.upload_time = .ok tS ∧
      strptime cfv.upload_time = .ok cS ∧
      (-2678400 : Int) = cS - tS :=
  C9_time_lag.1 testEnv negData fooSpec ⟨1, 0, 0⟩ 1 (-2678400)
    ["bar>=1.0"] rfl

end Checkrel
